import Mathlib

/-!
Shallow embedding of `interactive_conditional_samples.py`.

Python strings are embedded as `List Char`.  The external collaborators
(tokenizer, TensorFlow session, HTTP client, stdin) are oracles passed in
explicitly; everything the file itself computes (argument validation, the
interaction loop, `get_batches`, `find_quotes`, Python name resolution for
the free variable `context`) is embedded directly from the source.
-/

/-- Python exceptions that the embedded code can raise. -/
inductive PyError where
  /-- `assert nsamples % batch_size == 0` failing (the spec's InvalidArgument). -/
  | assertionError
  /-- `raise ValueError(...)` for a length above the context window (message omitted). -/
  | valueError
  /-- A read of a name that is bound neither locally nor at module scope. -/
  | nameError (n : String)
  /-- A read of a local variable before any assignment to it executed. -/
  | unboundLocal (n : String)
  /-- Indexing `out[i]` beyond the number of rows. -/
  | indexError
  /-- `nsamples % batch_size` or `nsamples // batch_size` with `batch_size == 0`. -/
  | zeroDivisionError
  /-- `input()` on exhausted standard input. -/
  | eofError
deriving DecidableEq, Repr

instance {ε α : Type} [DecidableEq ε] [DecidableEq α] : DecidableEq (Except ε α) := fun a b =>
  match a, b with
  | .error x, .error y =>
    if h : x = y then isTrue (congrArg Except.error h)
    else isFalse (fun hc => h (Except.error.inj hc))
  | .ok x, .ok y =>
    if h : x = y then isTrue (congrArg Except.ok h)
    else isFalse (fun hc => h (Except.ok.inj hc))
  | .error _, .ok _ => isFalse Except.noConfusion
  | .ok _, .error _ => isFalse Except.noConfusion

/-- True exactly for Python's unbound-name exceptions
(`NameError` and its subclass `UnboundLocalError`). -/
def PyError.isUnboundName : PyError → Bool
  | .nameError _ => true
  | .unboundLocal _ => true
  | _ => false

/-- The external tokenizer collaborator (`encoder.get_encoder(...)`):
`encode` maps text to token ids, `decode` maps token ids back to text. -/
structure Encoder where
  encode : List Char → List Int
  decode : List Int → List Char

/-- Python `pre.isprefix`-style test: `s.startswith(pre)` on `List Char`. -/
def startsWithList : List Char → List Char → Bool
  | [], _ => true
  | _ :: _, [] => false
  | c :: pre, d :: s => c == d && startsWithList pre s

/-- Python `s.endswith(suf)` on `List Char`. -/
def endsWithList (suf s : List Char) : Bool :=
  startsWithList suf.reverse s.reverse

/-- Python `s.split('\n\n')`: split on every non-overlapping occurrence of the
two-newline separator, scanning left to right.  `split2nl s` is never empty. -/
def split2nl : List Char → List (List Char)
  | [] => [[]]
  | '\n' :: '\n' :: rest => [] :: split2nl rest
  | c :: rest =>
    match split2nl rest with
    | [] => [[c]]
    | p :: ps => (c :: p) :: ps

/-- Python `'\n\n'.join(parts)`. -/
def pyJoin (sep : List Char) (parts : List (List Char)) : List Char :=
  List.intercalate sep parts

/-- `find_quotes(batch)` from the source: split the decoded text on blank
lines and keep a segment iff it starts with `"` and ends with the hardcoded
literal `" - Alan Watts` (the `for`/`append` loop is a filter). -/
def find_quotes (batch : List Char) : List (List Char) :=
  (split2nl batch).filter fun potential_quote =>
    startsWithList ("\"".data) potential_quote &&
      endsWithList ("\" - Alan Watts".data) potential_quote

/-- Modelled from the spec: the quote filter as §4.4 describes it, with the
attribution string a parameter — keep a segment iff it starts with `"` and
ends with `" - ` followed by the author.  The source's `find_quotes` takes no
author and hardcodes `Alan Watts`; this definition exists to compare the two. -/
def find_quotes_spec (author batch : List Char) : List (List Char) :=
  (split2nl batch).filter fun q =>
    startsWithList ("\"".data) q && endsWithList (("\" - ".data) ++ author) q

/-- The names bound at module scope of `interactive_conditional_samples.py`:
the six imported modules (`import fire, json, os, requests`,
`import numpy as np`, `import tensorflow as tf`), the three imported
collaborators (`import model, sample, encoder`) and the three `def`s.
`context` is NOT among them: it is a local variable of `interact_model` only. -/
def moduleGlobals : List String :=
  ["fire", "json", "os", "requests", "np", "tf", "model", "sample", "encoder",
   "interact_model", "get_batches", "find_quotes"]

/-- The inner loop of `get_batches`:
`for i in range(batch_size): generated += 1; text = enc.decode(out[i]); batches.append(text)`.
`i` counts up, `n` counts remaining iterations; `out[i]` out of range raises
IndexError.  (`generated` is incremented but never read, so it is not modelled.) -/
def decodeRowsAux (enc : Encoder) (out : List (List Int)) : Nat → Nat → Except PyError (List (List Char))
  | _, 0 => .ok []
  | i, n + 1 =>
    match out.get? i with
    | none => .error .indexError
    | some row =>
      match decodeRowsAux enc out (i + 1) n with
      | .error e => .error e
      | .ok rest => .ok (enc.decode row :: rest)

/-- The rows built by one round of `get_batches`, `batches` in the source:
`batches = []; for i in range(batch_size): batches.append(enc.decode(out[i]))`. -/
def decodeRows (enc : Encoder) (out : List (List Int)) (batch_size : Nat) :
    Except PyError (List (List Char)) :=
  decodeRowsAux enc out 0 batch_size

/-- The `for _ in range(nsamples // batch_size)` loop of `get_batches`.
Each iteration first evaluates the feed dict, which reads the free name
`context`; `context` is not assigned anywhere in `get_batches`, so Python
resolves it against the module globals and raises `NameError` when absent.
Only then does `sess.run` execute (modelled by the oracle `sessRun`, round
index `k`; the returned count is the number of `sess.run` calls made), the
result is sliced `[:, len(context_tokens):]`, and the round rebinds the local
`batches` from scratch — discarding the previous round's value. -/
def getBatchesRounds (globals : List String) (enc : Encoder) (ctxLen batch_size : Nat)
    (sessRun : Nat → List (List Int)) :
    Nat → Nat → Option (List (List Char)) → Nat →
      Nat × Except PyError (Option (List (List Char)))
  | _, 0, batchesVar, calls => (calls, .ok batchesVar)
  | k, n + 1, _, calls =>
    if "context" ∈ globals then
      let out := (sessRun k).map (fun row => row.drop ctxLen)
      match decodeRows enc out batch_size with
      | .error e => (calls + 1, .error e)
      | .ok batches =>
        getBatchesRounds globals enc ctxLen batch_size sessRun (k + 1) n (some batches) (calls + 1)
    else (calls, .error (.nameError "context"))

/-- `get_batches(prompt, enc, nsamples, batch_size, sess, output)` from the
source.  `globals` is the set of module-scope names in force at the call
(`moduleGlobals` for the real program).  The first component counts
`sess.run` invocations.  `range(nsamples // batch_size)` with
`batch_size == 0` raises ZeroDivisionError; after the loop, `return batches`
raises UnboundLocalError when the loop body never ran. -/
def get_batches (globals : List String) (prompt : List Char) (enc : Encoder)
    (nsamples batch_size : Nat) (sessRun : Nat → List (List Int)) :
    Nat × Except PyError (List (List Char)) :=
  let context_tokens := enc.encode prompt
  if batch_size = 0 then (0, .error .zeroDivisionError)
  else
    match getBatchesRounds globals enc context_tokens.length batch_size sessRun 0
        (nsamples / batch_size) none 0 with
    | (calls, .error e) => (calls, .error e)
    | (calls, .ok none) => (calls, .error (.unboundLocal "batches"))
    | (calls, .ok (some batches)) => (calls, .ok batches)

/-- Lines 53–56 of the source: `length` defaulting and validation.
`None` defaults to `hparams.n_ctx // 2` (Python floor division, `Int.fdiv`);
a length above the window raises `ValueError` (the spec's InvalidArgument);
any other value is accepted unchanged. -/
def resolve_length (length : Option Int) (n_ctx : Int) : Except PyError Int :=
  match length with
  | none => .ok (Int.fdiv n_ctx 2)
  | some L => if L > n_ctx then .error .valueError else .ok L

/-- The message printed for an empty interactive prompt. -/
def promptEmptyMsg : List Char := "Prompt should not be empty!".data

/-- Lines 85–88 of the source: `raw_text = input(...)` followed by
`while not raw_text: print(...); raw_text = input(...)`.  Stdin is the list
of lines still unread; the result is (validation messages printed, number of
`input()` calls, either EOFError or the non-empty line plus the rest of stdin). -/
def readPrompt : List (List Char) →
    List (List Char) × Nat × Except PyError (List Char × List (List Char))
  | [] => ([], 1, .error .eofError)
  | line :: rest =>
    if line = [] then
      match readPrompt rest with
      | (msgs, reads, r) => (promptEmptyMsg :: msgs, reads + 1, r)
    else ([], 1, .ok (line, rest))

/-- `readPrompt` consumes at least one stdin line when it succeeds. -/
theorem readPrompt_rest_lt (stdin : List (List Char)) :
    ∀ msgs reads t rest, readPrompt stdin = (msgs, reads, .ok (t, rest)) →
      rest.length < stdin.length := by
  induction stdin with
  | nil => intro msgs reads t rest h; simp [readPrompt] at h
  | cons line tl ih =>
    intro msgs reads t rest' h
    by_cases hline : line = []
    · subst hline
      rcases hr : readPrompt tl with ⟨msgs0, reads0, r0⟩
      simp [readPrompt, hr] at h
      cases r0 with
      | error e => simp at h
      | ok v =>
        rcases v with ⟨t0, rest0⟩
        simp only [Prod.mk.injEq, Except.ok.injEq] at h
        have hlt := ih msgs0 reads0 t0 rest0 (by rw [hr])
        have hrest : rest0 = rest' := h.2.2.2
        subst hrest
        simp only [List.length_cons]
        omega
    · simp only [readPrompt, if_neg hline, Prod.mk.injEq, Except.ok.injEq] at h
      have : tl = rest' := h.2.2.2
      subst this
      simp

/-- Lines 84–94 of the source: the interactive `while True` loop.
`promptVar` is the state of the local variable `prompt` on entry (in the real
program it is never assigned before the loop, i.e. `none`, because the URL
branch returns).  Each iteration reads a prompt, then evaluates the call
`get_batches(prompt, ...)` — note the read of `prompt`, not of the just-read
`raw_text` — builds `quotes` and prints them, then loops on the remaining
stdin.  The result is (printed lines, `input()` calls, `sess.run` calls,
normal-vs-exceptional termination). -/
def interactLoop (enc : Encoder) (nsamples batch_size : Nat)
    (sessRun : Nat → List (List Int)) (promptVar : Option (List Char))
    (stdin : List (List Char)) :
    List (List Char) × Nat × Nat × Except PyError Unit :=
  match h : readPrompt stdin with
  | (msgs, reads, .error e) => (msgs, reads, 0, .error e)
  | (msgs, reads, .ok (raw_text, rest)) =>
    match promptVar with
    | none => (msgs, reads, 0, .error (.unboundLocal "prompt"))
    | some prompt =>
      match get_batches moduleGlobals prompt enc nsamples batch_size sessRun with
      | (calls, .error e) => (msgs, reads, calls, .error e)
      | (calls, .ok batches) =>
        let quotes := batches.foldl (fun acc b => acc ++ find_quotes b) []
        match interactLoop enc nsamples batch_size sessRun promptVar rest with
        | (printed, reads2, calls2, r) =>
          (msgs ++ quotes ++ printed, reads + reads2, calls + calls2, r)
termination_by stdin.length
decreasing_by exact readPrompt_rest_lt stdin _ _ _ _ h

/-- Observable trace of one run of `interact_model`: lines printed, `input()`
calls, HTTP fetches, `sess.run` calls, and how the run ended. -/
structure Trace where
  printed : List (List Char)
  reads : Nat
  fetches : Nat
  samplerCalls : Nat
  result : Except PyError Unit
deriving Repr

/-- `interact_model` from the source, after the external loads (encoder,
hparams, checkpoint) are abstracted into the oracles `enc`, `n_ctx`,
`sessRun`, `fetched` (the body of the HTTP response) and `stdin`.  In source
order: the `batch_size` default, the `assert nsamples % batch_size == 0`
(AssertionError; `% 0` is ZeroDivisionError), length resolution, then either
the URL branch (lines 73–82: one fetch, one `get_batches` call, print the
filtered quotes, return) or the interactive loop (lines 84–94).  The `author`
argument is accepted — mirroring the source's signature — and never read:
`find_quotes` hardcodes its suffix. -/
def interact_model (nsamples : Nat) (batch_size : Option Nat) (length : Option Int)
    (n_ctx : Int) (prompt_url : Option (List Char)) (author : List Char)
    (enc : Encoder) (sessRun : Nat → List (List Int)) (fetched : List Char)
    (stdin : List (List Char)) : Trace :=
  let bs := batch_size.getD 1
  if bs = 0 then ⟨[], 0, 0, 0, .error .zeroDivisionError⟩
  else if nsamples % bs ≠ 0 then ⟨[], 0, 0, 0, .error .assertionError⟩
  else
    match resolve_length length n_ctx with
    | .error e => ⟨[], 0, 0, 0, .error e⟩
    | .ok _ =>
      match prompt_url with
      | some _ =>
        let prompt := fetched
        match get_batches moduleGlobals prompt enc nsamples bs sessRun with
        | (calls, .error e) => ⟨[], 0, 1, calls, .error e⟩
        | (calls, .ok batches) =>
          ⟨batches.foldl (fun acc b => acc ++ find_quotes b) [], 0, 1, calls, .ok ()⟩
      | none =>
        match interactLoop enc nsamples bs sessRun none stdin with
        | (printed, reads, calls, r) => ⟨printed, reads, 0, calls, r⟩

/-- Concrete test-double encoder for witnesses. -/
def encA : Encoder :=
  ⟨fun s => s.map (fun c => (c.toNat : Int)), fun t => t.map (fun i => Char.ofNat i.toNat)⟩

/-- Concrete test-double sampler for witnesses: round `j` yields one row
continuing the (empty-slice-adjusted) output with token `j + 97`. -/
def runA : Nat → List (List Int) := fun j => [[(j : Int) + 97]]

/-- Whether the two-newline separator occurs anywhere in the string. -/
def hasNN : List Char → Bool
  | c :: d :: rest => (c == '\n' && d == '\n') || hasNN (d :: rest)
  | _ => false

theorem split2nl_ne_nil (s : List Char) : split2nl s ≠ [] := by
  induction s using split2nl.induct with
  | case1 => simp [split2nl.eq_1]
  | case2 rest ih => simp [split2nl.eq_2]
  | case3 c rest hnot hnil ih => exact absurd hnil ih
  | case4 c rest hnot p ps hps ih =>
    rw [split2nl.eq_3 c rest hnot, hps]
    simp

/-- The first segment of `split2nl (c :: rest)` is either empty or starts with `c`;
in particular a nonempty first segment reveals the head of the input. -/
theorem split2nl_head_align (s : List Char) :
    ∀ d q ps, split2nl s = (d :: q) :: ps → ∃ s', s = d :: s' := by
  induction s using split2nl.induct with
  | case1 =>
    intro d q ps h
    rw [split2nl.eq_1] at h
    simp at h
  | case2 rest ih =>
    intro d q ps h
    rw [split2nl.eq_2] at h
    simp at h
  | case3 c rest hnot hnil ih =>
    intro d q ps h
    rw [split2nl.eq_3 c rest hnot, hnil] at h
    simp only [List.cons.injEq] at h
    exact ⟨rest, by rw [h.1.1]⟩
  | case4 c rest hnot p0 ps0 hps ih =>
    intro d q ps h
    rw [split2nl.eq_3 c rest hnot, hps] at h
    simp only [List.cons.injEq] at h
    exact ⟨rest, by rw [h.1.1]⟩

/-- No segment produced by `split2nl` contains the two-newline separator. -/
theorem hasNN_of_mem_split2nl (s : List Char) :
    ∀ p ∈ split2nl s, hasNN p = false := by
  induction s using split2nl.induct with
  | case1 =>
    intro p hp
    rw [split2nl.eq_1] at hp
    simp at hp
    subst hp
    rfl
  | case2 rest ih =>
    intro p hp
    rw [split2nl.eq_2] at hp
    rcases List.mem_cons.mp hp with h | h
    · subst h; rfl
    · exact ih p h
  | case3 c rest hnot hnil ih =>
    intro p hp
    rw [split2nl.eq_3 c rest hnot, hnil] at hp
    simp at hp
    subst hp
    rfl
  | case4 c rest hnot p0 ps hps ih =>
    intro p hp
    rw [split2nl.eq_3 c rest hnot, hps] at hp
    rcases List.mem_cons.mp hp with h | h
    · subst h
      cases p0 with
      | nil => rfl
      | cons d q =>
        have hdq : hasNN (d :: q) = false :=
          ih (d :: q) (by rw [hps]; exact List.mem_cons_self _ _)
        obtain ⟨rest', hrest'⟩ := split2nl_head_align rest d q ps hps
        have hcd : (c == '\n' && d == '\n') = false := by
          by_cases hc : c = '\n'
          · by_cases hd : d = '\n'
            · exact (hnot rest' hc (by rw [hrest', hd])).elim
            · simp [hd]
          · simp [hc]
        rw [hasNN, hcd, hdq]
        rfl
    · exact ih p (by rw [hps]; exact List.mem_cons_of_mem _ h)

/-- A string free of the two-newline separator splits into just itself. -/
theorem split2nl_of_not_hasNN (p : List Char) (h : hasNN p = false) :
    split2nl p = [p] := by
  induction p using split2nl.induct with
  | case1 => rw [split2nl.eq_1]
  | case2 rest ih =>
    rw [hasNN] at h
    simp at h
  | case3 c rest hnot hnil ih => exact absurd hnil (split2nl_ne_nil rest)
  | case4 c rest hnot p0 ps hps ih =>
    have hrest : hasNN rest = false := by
      cases rest with
      | nil => rfl
      | cons d q =>
        rw [hasNN] at h
        exact (Bool.or_eq_false_iff.mp h).2
    have hr := ih hrest
    rw [split2nl.eq_3 c rest hnot, hps]
    rw [hps] at hr
    simp only [List.cons.injEq] at hr
    rw [hr.1, hr.2]


theorem pyJoin_nil (sep : List Char) : pyJoin sep [] = [] := rfl

theorem pyJoin_single (sep p : List Char) : pyJoin sep [p] = p := by
  simp [pyJoin, List.intercalate]

theorem pyJoin_cons2 (sep p q : List Char) (rest : List (List Char)) :
    pyJoin sep (p :: q :: rest) = p ++ sep ++ pyJoin sep (q :: rest) := by
  simp [pyJoin, List.intercalate, List.intersperse]

theorem split2nl_append (t : List Char) : ∀ p, hasNN p = false → p.getLast? ≠ some '\n' →
    split2nl (p ++ '\n' :: '\n' :: t) = p :: split2nl t := by
  intro p
  induction p with
  | nil =>
    intro h hl
    rw [List.nil_append, split2nl.eq_2]
  | cons c rest ih =>
    intro h hl
    cases rest with
    | nil =>
      have hc : c ≠ '\n' := by simpa using hl
      have hcond : ∀ r1 : List Char, c = '\n' → ('\n' :: '\n' :: t) = '\n' :: r1 → False :=
        fun r1 hcc _ => hc hcc
      rw [List.cons_append, List.nil_append, split2nl.eq_3 c _ hcond, split2nl.eq_2]
    | cons d q =>
      have hcd : ¬(c = '\n' ∧ d = '\n') := by
        intro hand
        rw [hasNN, hand.1, hand.2] at h
        simp at h
      have hrest : hasNN (d :: q) = false := by
        rw [hasNN] at h
        exact (Bool.or_eq_false_iff.mp h).2
      have hlast : (d :: q).getLast? ≠ some '\n' := by
        rwa [List.getLast?_cons_cons] at hl
      have ihh := ih hrest hlast
      have hcond : ∀ r1 : List Char, c = '\n' → ((d :: q) ++ '\n' :: '\n' :: t) = '\n' :: r1 → False := by
        intro r1 hcc happ
        rw [List.cons_append] at happ
        exact hcd ⟨hcc, (List.cons.inj happ).1⟩
      rw [List.cons_append, split2nl.eq_3 c _ hcond, ihh]

theorem split2nl_pyJoin : ∀ parts : List (List Char), parts ≠ [] →
    (∀ p ∈ parts, hasNN p = false ∧ p.getLast? ≠ some '\n') →
    split2nl (pyJoin ('\n' :: '\n' :: []) parts) = parts := by
  intro parts
  induction parts with
  | nil => intro h; exact absurd rfl h
  | cons p rest ih =>
    intro _ hall
    cases rest with
    | nil =>
      rw [pyJoin_single]
      exact split2nl_of_not_hasNN p (hall p (List.mem_cons_self _ _)).1
    | cons p2 rest2 =>
      rw [pyJoin_cons2]
      have hp := hall p (List.mem_cons_self _ _)
      have step : p ++ ('\n' :: '\n' :: []) ++ pyJoin ('\n' :: '\n' :: []) (p2 :: rest2)
          = p ++ '\n' :: '\n' :: pyJoin ('\n' :: '\n' :: []) (p2 :: rest2) := by
        rw [List.append_assoc]
        rfl
      rw [step, split2nl_append _ p hp.1 hp.2]
      rw [ih (by simp) (fun q hq => hall q (List.mem_cons_of_mem _ hq))]

theorem startsWithList_iff : ∀ pre s : List Char,
    startsWithList pre s = true ↔ ∃ t, s = pre ++ t := by
  intro pre
  induction pre with
  | nil => intro s; simp [startsWithList]
  | cons c pre ih =>
    intro s
    cases s with
    | nil =>
      rw [startsWithList]
      simp
    | cons d s' =>
      rw [startsWithList]
      constructor
      · intro h
        obtain ⟨h1, h2⟩ := Bool.and_eq_true_iff.mp h
        obtain ⟨t, ht⟩ := (ih s').mp h2
        refine ⟨t, ?_⟩
        rw [List.cons_append, beq_iff_eq.mp h1, ht]
      · rintro ⟨t, ht⟩
        rw [List.cons_append] at ht
        obtain ⟨h1, h2⟩ := List.cons.inj ht
        refine Bool.and_eq_true_iff.mpr ⟨beq_iff_eq.mpr h1.symm, (ih s').mpr ⟨t, h2⟩⟩

theorem endsWithList_iff (suf s : List Char) :
    endsWithList suf s = true ↔ ∃ t, s = t ++ suf := by
  rw [endsWithList, startsWithList_iff]
  constructor
  · rintro ⟨t, ht⟩
    refine ⟨t.reverse, ?_⟩
    have := congrArg List.reverse ht
    simpa using this
  · rintro ⟨t, ht⟩
    exact ⟨t.reverse, by rw [ht]; simp⟩

/-- C10: the quote filter is idempotent on its own output: joining the
filtered quotes with the blank-line separator and filtering again returns
exactly the same sequence — each retained segment contains no two-newline
boundary and still satisfies the prefix/suffix test. -/
theorem find_quotes_idempotent (s : List Char) :
    find_quotes (pyJoin ("\n\n".data) (find_quotes s)) = find_quotes s := by
  have hsep : ("\n\n".data) = ('\n' :: '\n' :: []) := rfl
  have hmem : ∀ p ∈ find_quotes s,
      p ∈ split2nl s ∧
        (startsWithList ("\"".data) p && endsWithList ("\" - Alan Watts".data) p) = true := by
    intro p hp
    simp only [find_quotes] at hp
    have := List.mem_filter.mp hp
    simpa using this
  have hconds : ∀ p ∈ find_quotes s, hasNN p = false ∧ p.getLast? ≠ some '\n' := by
    intro p hp
    obtain ⟨hsp, hpred⟩ := hmem p hp
    refine ⟨hasNN_of_mem_split2nl s p hsp, ?_⟩
    obtain ⟨-, hend⟩ := Bool.and_eq_true_iff.mp hpred
    obtain ⟨t, ht⟩ := (endsWithList_iff _ _).mp hend
    have hrev : p.reverse.head? = some 's' := by
      rw [ht, List.reverse_append]
      rfl
    rw [← List.head?_reverse, hrev]
    simp
  cases hq : find_quotes s with
  | nil =>
    rw [hsep, pyJoin_nil]
    decide
  | cons q qs =>
    rw [hsep]
    simp only [find_quotes]
    rw [split2nl_pyJoin (q :: qs) (by simp)
      (fun p hp => hconds p (by rw [hq]; exact hp))]
    exact List.filter_eq_self.mpr (fun a ha => (hmem a (by rw [hq]; exact ha)).2)

theorem decodeRowsAux_ok (enc : Encoder) (out : List (List Int)) :
    ∀ m i, i + m ≤ out.length →
      decodeRowsAux enc out i m = .ok (((out.drop i).take m).map enc.decode) := by
  intro m
  induction m with
  | zero => intro i h; simp [decodeRowsAux]
  | succ m ih =>
    intro i h
    have hi : i < out.length := by omega
    rw [decodeRowsAux, List.get?_eq_getElem?, List.getElem?_eq_getElem hi]
    rw [ih (i + 1) (by omega)]
    rw [List.drop_eq_getElem_cons hi, List.take_succ_cons, List.map_cons]

/-- The decoded batch produced by round `j` of `get_batches`: slice the
prompt echo off every row of the sampler output, keep the first `batch_size`
rows, decode each. -/
def lastRoundDecoded (enc : Encoder) (ctxLen bs : Nat) (sessRun : Nat → List (List Int)) (j : Nat) :
    List (List Char) :=
  (((sessRun j).map (fun row => row.drop ctxLen)).take bs).map enc.decode

theorem getBatchesRounds_ctx (enc : Encoder) (ctxLen bs : Nat) (sessRun : Nat → List (List Int))
    (hlen : ∀ j, bs ≤ (sessRun j).length) :
    ∀ n k bvar calls,
      getBatchesRounds ("context" :: moduleGlobals) enc ctxLen bs sessRun k (n + 1) bvar calls =
        (calls + (n + 1), .ok (some (lastRoundDecoded enc ctxLen bs sessRun (k + n)))) := by
  have hdr : ∀ k, decodeRows enc ((sessRun k).map (fun row => row.drop ctxLen)) bs
      = .ok (lastRoundDecoded enc ctxLen bs sessRun k) := by
    intro k
    rw [decodeRows, decodeRowsAux_ok enc _ bs 0 (by simpa using hlen k)]
    simp [lastRoundDecoded]
  intro n
  induction n with
  | zero =>
    intro k bvar calls
    rw [getBatchesRounds.eq_2, if_pos (List.mem_cons_self _ _)]
    show (match decodeRows enc ((sessRun k).map (fun row => row.drop ctxLen)) bs with
      | Except.error e => (calls + 1, Except.error e)
      | Except.ok batches =>
        getBatchesRounds ("context" :: moduleGlobals) enc ctxLen bs sessRun (k + 1) 0
          (some batches) (calls + 1)) = _
    rw [hdr k]
    show getBatchesRounds ("context" :: moduleGlobals) enc ctxLen bs sessRun (k + 1) 0
        (some (lastRoundDecoded enc ctxLen bs sessRun k)) (calls + 1) = _
    rw [getBatchesRounds.eq_1]
    simp
  | succ n ih =>
    intro k bvar calls
    rw [getBatchesRounds.eq_2, if_pos (List.mem_cons_self _ _)]
    show (match decodeRows enc ((sessRun k).map (fun row => row.drop ctxLen)) bs with
      | Except.error e => (calls + 1, Except.error e)
      | Except.ok batches =>
        getBatchesRounds ("context" :: moduleGlobals) enc ctxLen bs sessRun (k + 1) (n + 1)
          (some batches) (calls + 1)) = _
    rw [hdr k]
    show getBatchesRounds ("context" :: moduleGlobals) enc ctxLen bs sessRun (k + 1) (n + 1)
        (some (lastRoundDecoded enc ctxLen bs sessRun k)) (calls + 1) = _
    rw [ih (k + 1) _ (calls + 1)]
    have h1 : calls + 1 + (n + 1) = calls + (n + 1 + 1) := by omega
    have h2 : k + 1 + n = k + (n + 1) := by omega
    rw [h1, h2]

theorem get_batches_mg_no_rounds (prompt : List Char) (enc : Encoder) (ns bs : Nat)
    (sessRun : Nat → List (List Int)) (hb : bs ≠ 0) (h0 : ns / bs = 0) :
    get_batches moduleGlobals prompt enc ns bs sessRun = (0, .error (.unboundLocal "batches")) := by
  rw [get_batches]
  simp only [if_neg hb, h0, getBatchesRounds.eq_1]

theorem get_batches_mg_name_error (prompt : List Char) (enc : Encoder) (ns bs : Nat)
    (sessRun : Nat → List (List Int)) (hb : bs ≠ 0) (h1 : 1 ≤ ns / bs) :
    get_batches moduleGlobals prompt enc ns bs sessRun = (0, .error (.nameError "context")) := by
  obtain ⟨n, hn⟩ : ∃ n, ns / bs = n + 1 := ⟨ns / bs - 1, by omega⟩
  rw [get_batches]
  simp only [if_neg hb, hn, getBatchesRounds.eq_2]
  rw [if_neg (by decide : ¬ ("context" ∈ moduleGlobals))]

theorem get_batches_ctx_last_round (prompt : List Char) (enc : Encoder) (ns bs : Nat)
    (sessRun : Nat → List (List Int)) (hb : bs ≠ 0) (h1 : 1 ≤ ns / bs)
    (hlen : ∀ j, bs ≤ (sessRun j).length) :
    get_batches ("context" :: moduleGlobals) prompt enc ns bs sessRun =
      (ns / bs,
        .ok (lastRoundDecoded enc (enc.encode prompt).length bs sessRun (ns / bs - 1))) := by
  obtain ⟨n, hn⟩ : ∃ n, ns / bs = n + 1 := ⟨ns / bs - 1, by omega⟩
  rw [get_batches]
  simp only [if_neg hb, hn]
  rw [getBatchesRounds_ctx enc _ bs sessRun hlen n 0 none 0]
  simp

theorem readPrompt_empties (k : Nat) :
    readPrompt (List.replicate k []) =
      (List.replicate k promptEmptyMsg, k + 1, .error .eofError) := by
  induction k with
  | zero => rfl
  | succ k ih => simp [List.replicate_succ, readPrompt, ih]

theorem readPrompt_skips_empties (k : Nat) (ne : List Char) (hne : ne ≠ [])
    (rest : List (List Char)) :
    readPrompt (List.replicate k [] ++ ne :: rest) =
      (List.replicate k promptEmptyMsg, k + 1, .ok (ne, rest)) := by
  induction k with
  | zero => simp [readPrompt, hne]
  | succ k ih => simp [List.replicate_succ, readPrompt, ih]

theorem readPrompt_error_eof (stdin : List (List Char)) :
    ∀ msgs reads e, readPrompt stdin = (msgs, reads, .error e) → e = .eofError := by
  induction stdin with
  | nil =>
    intro msgs reads e h
    simp [readPrompt] at h
    exact h.2.2.symm
  | cons line rest ih =>
    intro msgs reads e h
    by_cases hline : line = []
    · subst hline
      rcases hr : readPrompt rest with ⟨msgs0, reads0, r0⟩
      simp [readPrompt, hr] at h
      cases r0 with
      | error e0 =>
        have he0 := ih msgs0 reads0 e0 hr
        simp only [Except.error.injEq] at h
        rw [← h.2.2, he0]
      | ok v => simp at h
    · simp [readPrompt, hline] at h

theorem interactLoop_empties (enc : Encoder) (ns bs : Nat) (sessRun : Nat → List (List Int))
    (k : Nat) :
    interactLoop enc ns bs sessRun none (List.replicate k []) =
      (List.replicate k promptEmptyMsg, k + 1, 0, .error .eofError) := by
  rw [interactLoop]
  split
  · rename_i msgs reads e h
    rw [readPrompt_empties k] at h
    simp only [Prod.mk.injEq, Except.error.injEq] at h
    rw [← h.1, ← h.2.1, ← h.2.2]
  · rename_i msgs reads raw rest h
    rw [readPrompt_empties k] at h
    simp at h

theorem interactLoop_none_result (enc : Encoder) (ns bs : Nat) (sessRun : Nat → List (List Int))
    (stdin : List (List Char)) :
    (interactLoop enc ns bs sessRun none stdin).2.2.2 = .error .eofError ∨
    (interactLoop enc ns bs sessRun none stdin).2.2.2 = .error (.unboundLocal "prompt") := by
  rw [interactLoop]
  split
  · rename_i msgs reads e h
    left
    simp [readPrompt_error_eof stdin msgs reads e h]
  · rename_i msgs reads raw rest h
    right
    rfl


/-- C1: the claim says a non-empty interactive line proceeds to
generation-and-filter on that entered text, prints quotes, and loops.  The
code instead calls `get_batches(prompt, ...)`: in interactive mode the local
`prompt` is never assigned (the entered line is bound to `raw_text`), so the
first non-empty submission raises UnboundLocalError — one stdin read, zero
sampler calls, nothing printed, no loop iteration completes. -/
theorem interactive_nonempty_line_hits_unbound_prompt :
    interact_model 1 (some 1) none 1024 none ("Alan Watts".data) encA runA []
      ["hi".data] = ⟨[], 1, 0, 0, .error (.unboundLocal "prompt")⟩ := by
  simp [interact_model, interactLoop, readPrompt, resolve_length]

/-- C2: every invocation of `get_batches` under the program's module globals
raises an unbound-name error with zero `sess.run` calls: `context` is not a
module-scope name, so as soon as there is at least one sampling round the
feed-dict evaluation raises NameError 'context' (with zero rounds the
`return batches` raises UnboundLocalError instead), hence no mode can ever
complete a generation step through `get_batches`. -/
theorem get_batches_always_unbound_name (prompt : List Char) (enc : Encoder)
    (ns bs : Nat) (sessRun : Nat → List (List Int)) (hb : 1 ≤ bs) :
    "context" ∉ moduleGlobals ∧
    (get_batches moduleGlobals prompt enc ns bs sessRun).1 = 0 ∧
    ∃ e, (get_batches moduleGlobals prompt enc ns bs sessRun).2 = .error e ∧
      e.isUnboundName = true ∧ (1 ≤ ns / bs → e = .nameError "context") := by
  have hb0 : bs ≠ 0 := by omega
  refine ⟨by decide, ?_, ?_⟩
  · by_cases h : 1 ≤ ns / bs
    · rw [get_batches_mg_name_error prompt enc ns bs sessRun hb0 h]
    · rw [get_batches_mg_no_rounds prompt enc ns bs sessRun hb0
        (Nat.lt_one_iff.mp (Nat.not_le.mp h))]
  · by_cases h : 1 ≤ ns / bs
    · exact ⟨.nameError "context",
        by rw [get_batches_mg_name_error prompt enc ns bs sessRun hb0 h], rfl, fun _ => rfl⟩
    · exact ⟨.unboundLocal "batches",
        by rw [get_batches_mg_no_rounds prompt enc ns bs sessRun hb0
          (Nat.lt_one_iff.mp (Nat.not_le.mp h))], rfl,
        fun hc => absurd hc h⟩

theorem get_batches_always_unbound_name_witness :
    (1 ≤ 1) ∧
    ("context" ∉ moduleGlobals ∧
      (get_batches moduleGlobals ("x".data) encA 1 1 runA).1 = 0 ∧
      ∃ e, (get_batches moduleGlobals ("x".data) encA 1 1 runA).2 = .error e ∧
        e.isUnboundName = true ∧ (1 ≤ 1 / 1 → e = .nameError "context")) :=
  ⟨by decide, get_batches_always_unbound_name ("x".data) encA 1 1 runA (by decide)⟩

/-- C3: `find_quotes` keeps exactly the blank-line-separated segments that
start with a double quote and end with the attribution suffix, and on the
spec's concrete input it returns exactly the two matching quotes in order. -/
theorem find_quotes_split_and_example :
    (∀ s q, q ∈ find_quotes s ↔
      q ∈ split2nl s ∧ startsWithList ("\"".data) q = true ∧
        endsWithList ("\" - Alan Watts".data) q = true) ∧
    find_quotes ("\"hello\" - Alan Watts\n\nnot a quote\n\n\"bye\" - Alan Watts".data) =
      ["\"hello\" - Alan Watts".data, "\"bye\" - Alan Watts".data] := by
  constructor
  · intro s q
    simp [find_quotes, List.mem_filter, Bool.and_eq_true_iff, and_assoc]
  · decide

/-- C4: the claim says the attribution suffix is configurable through the
`author` argument.  It is not: `interact_model` accepts `author` but never
passes it on, and `find_quotes` hardcodes `" - Alan Watts`, so with
author = `Bob` the segment `"hi" - Bob` is dropped by the code although the
spec's author-parameterized filter (`find_quotes_spec`) retains it. -/
theorem find_quotes_author_not_configurable :
    find_quotes ("\"hi\" - Bob".data) = [] ∧
    find_quotes_spec ("Bob".data) ("\"hi\" - Bob".data) = ["\"hi\" - Bob".data] := by
  constructor
  · decide
  · decide

/-- C5 counterexample: the claim speaks of "the returned value" of
`get_batches`, but at this concrete valid configuration (two rounds, batch
size one) no value is returned at all — the call raises NameError 'context'
before any round completes. -/
theorem get_batches_no_return_counterexample :
    ¬ ∃ v, (get_batches moduleGlobals ("x".data) encA 2 1 runA).2 = Except.ok v := by
  rintro ⟨v, hv⟩
  rw [get_batches_mg_name_error ("x".data) encA 2 1 runA (by decide) (by decide)] at hv
  simp at hv

/-- C5 amended: in the intended-scope variant in which the name `context`
resolves (so `sess.run` executes), a call running `r = nsamples / batch_size`
rounds (`r ≥ 1`, sampler rows sufficient) returns exactly `batch_size`
decoded strings, and they are those of the final round `r - 1` only — the
decoded text of every earlier round is overwritten, never reaching the
filter. -/
theorem get_batches_last_round_only (prompt : List Char) (enc : Encoder) (ns bs : Nat)
    (sessRun : Nat → List (List Int)) (hb : 1 ≤ bs) (hr : 1 ≤ ns / bs)
    (hlen : ∀ j, bs ≤ (sessRun j).length) :
    (get_batches ("context" :: moduleGlobals) prompt enc ns bs sessRun).2 =
      .ok (lastRoundDecoded enc (enc.encode prompt).length bs sessRun (ns / bs - 1)) ∧
    (lastRoundDecoded enc (enc.encode prompt).length bs sessRun (ns / bs - 1)).length = bs := by
  constructor
  · rw [get_batches_ctx_last_round prompt enc ns bs sessRun (by omega) hr hlen]
  · rw [lastRoundDecoded, List.length_map, List.length_take, List.length_map]
    exact Nat.min_eq_left (hlen (ns / bs - 1))

theorem get_batches_last_round_only_witness :
    (1 ≤ 1) ∧ (1 ≤ 2 / 1) ∧ (∀ j, 1 ≤ (runA j).length) ∧
    ((get_batches ("context" :: moduleGlobals) ("x".data) encA 2 1 runA).2 =
      .ok (lastRoundDecoded encA (encA.encode ("x".data)).length 1 runA (2 / 1 - 1)) ∧
    (lastRoundDecoded encA (encA.encode ("x".data)).length 1 runA (2 / 1 - 1)).length = 1) :=
  ⟨by decide, by decide, fun j => by simp [runA],
    get_batches_last_round_only ("x".data) encA 2 1 runA (by decide) (by decide)
      (fun j => by simp [runA])⟩

theorem resolve_length_error_is_valueError (L : Option Int) (n_ctx : Int) :
    ∀ e, resolve_length L n_ctx = .error e → e = .valueError := by
  intro e h
  cases L with
  | none => simp [resolve_length] at h
  | some Lv =>
    rw [resolve_length] at h
    by_cases hc : Lv > n_ctx
    · rw [if_pos hc] at h
      exact (Except.error.inj h).symm
    · rw [if_neg hc] at h
      exact absurd h (by simp)

/-- C6: with a batch size `b ≥ 1`, `nsamples % b ≠ 0` makes the `assert`
(the spec's InvalidArgument) fail immediately — no fetch, no stdin read, no
sampler call, nothing printed — while `nsamples % b = 0` passes the check:
whatever happens later, the run never ends in AssertionError. -/
theorem nsamples_divisibility_validation (ns b : Nat) (hb : 1 ≤ b) (L : Option Int)
    (n_ctx : Int) (url : Option (List Char)) (author fetched : List Char) (enc : Encoder)
    (sessRun : Nat → List (List Int)) (stdin : List (List Char)) :
    (ns % b ≠ 0 →
      interact_model ns (some b) L n_ctx url author enc sessRun fetched stdin =
        ⟨[], 0, 0, 0, .error .assertionError⟩) ∧
    (ns % b = 0 →
      (interact_model ns (some b) L n_ctx url author enc sessRun fetched stdin).result ≠
        .error .assertionError) := by
  have hb0 : b ≠ 0 := by omega
  constructor
  · intro hmod
    simp [interact_model, hb0, hmod]
  · intro hmod
    simp only [interact_model, Option.getD_some, if_neg hb0, hmod, ne_eq,
      not_true_eq_false, if_false]
    rcases hL : resolve_length L n_ctx with e | v
    · have := resolve_length_error_is_valueError L n_ctx e hL
      subst this
      simp
    · cases url with
      | some u =>
        by_cases hr1 : 1 ≤ ns / b
        · rw [get_batches_mg_name_error fetched enc ns b sessRun hb0 hr1]
          simp
        · rw [get_batches_mg_no_rounds fetched enc ns b sessRun hb0
            (Nat.lt_one_iff.mp (Nat.not_le.mp hr1))]
          simp
      | none =>
        rcases hI : interactLoop enc ns b sessRun none stdin with ⟨printed, reads, calls, r⟩
        have hres := interactLoop_none_result enc ns b sessRun stdin
        rw [hI] at hres
        simp only at hres
        rcases hres with h | h <;> simp [h]

theorem nsamples_divisibility_validation_witness :
    (1 ≤ 2) ∧
    ((3 % 2 ≠ 0 →
      interact_model 3 (some 2) none 1024 none [] encA runA [] [] =
        ⟨[], 0, 0, 0, .error .assertionError⟩) ∧
     (3 % 2 = 0 →
      (interact_model 3 (some 2) none 1024 none [] encA runA [] []).result ≠
        .error .assertionError)) :=
  ⟨by decide, nsamples_divisibility_validation 3 2 (by decide) none 1024 none [] [] encA runA []⟩

/-- C7: requested lengths above the context window fail with ValueError (the
spec's InvalidArgument); an unset length defaults to `n_ctx // 2` (floor
division); any length at most the window is accepted unchanged. -/
theorem length_validation_and_default (Lv n_ctx : Int) :
    resolve_length none n_ctx = .ok (Int.fdiv n_ctx 2) ∧
    (Lv > n_ctx → resolve_length (some Lv) n_ctx = .error .valueError) ∧
    (Lv ≤ n_ctx → resolve_length (some Lv) n_ctx = .ok Lv) := by
  refine ⟨rfl, fun h => ?_, fun h => ?_⟩
  · rw [resolve_length, if_pos h]
  · rw [resolve_length, if_neg (by omega)]

theorem length_validation_and_default_witness :
    resolve_length (some 2000) 1024 = .error .valueError ∧
    resolve_length (some 7) 1024 = .ok 7 ∧
    resolve_length none 1024 = .ok (Int.fdiv 1024 2) :=
  ⟨(length_validation_and_default 2000 1024).2.1 (by decide),
   (length_validation_and_default 7 1024).2.2 (by decide),
   (length_validation_and_default 7 1024).1⟩

/-- C8: a run of `k` empty submissions prints the validation message `k`
times, performs `k + 1` reads and hands the first non-empty line to the rest
of the iteration unchanged; and on a stream of empty lines only, the
interactive loop performs no sampler invocation at all and prints nothing but
the validation messages. -/
theorem empty_input_reprompts_no_generation (k : Nat) (ne : List Char) (hne : ne ≠ [])
    (rest : List (List Char)) (enc : Encoder) (ns bs : Nat)
    (sessRun : Nat → List (List Int)) :
    readPrompt (List.replicate k [] ++ ne :: rest) =
      (List.replicate k promptEmptyMsg, k + 1, .ok (ne, rest)) ∧
    interactLoop enc ns bs sessRun none (List.replicate k []) =
      (List.replicate k promptEmptyMsg, k + 1, 0, .error .eofError) :=
  ⟨readPrompt_skips_empties k ne hne rest, interactLoop_empties enc ns bs sessRun k⟩

theorem empty_input_reprompts_no_generation_witness :
    ("hi".data ≠ []) ∧
    (readPrompt (List.replicate 2 [] ++ ("hi".data) :: []) =
      (List.replicate 2 promptEmptyMsg, 3, .ok ("hi".data, [])) ∧
     interactLoop encA 1 1 runA none (List.replicate 2 []) =
      (List.replicate 2 promptEmptyMsg, 3, 0, .error .eofError)) :=
  ⟨by decide, empty_input_reprompts_no_generation 2 ("hi".data) (by decide) [] encA 1 1 runA⟩

/-- C9 counterexample: at a valid configuration, URL mode does not complete a
generation-and-filter cycle and does not return — the run ends in an
exception — and at an invalid configuration (nsamples 3, batch size 2) no
fetch happens at all, so the claim's "exactly one fetch ... for every
sample-count/batch-size configuration ... then returns" is false. -/
theorem url_mode_counterexample :
    (interact_model 1 (some 1) none 1024 (some ("u".data)) [] encA runA ("x".data)
      []).result ≠ Except.ok () ∧
    (interact_model 3 (some 2) none 1024 (some ("u".data)) [] encA runA ("x".data)
      []).fetches = 0 := by
  constructor
  · decide
  · decide

/-- C9 amended: when a prompt URL is supplied and the configuration passes
validation (positive batch size dividing the sample count, admissible
length), the program performs exactly one HTTP fetch, never reads stdin (so
never enters the interactive re-prompt loop), prints nothing, makes zero
sampler calls, and terminates with the unbound-name error raised by its
single `get_batches` invocation instead of returning normally. -/
theorem url_mode_one_fetch_error (ns b : Nat) (hb : 1 ≤ b) (hdiv : ns % b = 0)
    (L : Option Int) (n_ctx : Int) (hL : ∃ v, resolve_length L n_ctx = Except.ok v)
    (url author fetched : List Char) (enc : Encoder) (sessRun : Nat → List (List Int))
    (stdin : List (List Char)) :
    (interact_model ns (some b) L n_ctx (some url) author enc sessRun fetched stdin).fetches
        = 1 ∧
    (interact_model ns (some b) L n_ctx (some url) author enc sessRun fetched stdin).reads
        = 0 ∧
    (interact_model ns (some b) L n_ctx (some url) author enc sessRun fetched stdin).printed
        = [] ∧
    (interact_model ns (some b) L n_ctx (some url) author enc sessRun fetched
        stdin).samplerCalls = 0 ∧
    ∃ e, (interact_model ns (some b) L n_ctx (some url) author enc sessRun fetched
        stdin).result = .error e ∧ e.isUnboundName = true := by
  obtain ⟨v, hv⟩ := hL
  have hb0 : b ≠ 0 := by omega
  by_cases hr1 : 1 ≤ ns / b
  · have hT : interact_model ns (some b) L n_ctx (some url) author enc sessRun fetched stdin
        = ⟨[], 0, 1, 0, .error (.nameError "context")⟩ := by
      simp [interact_model, hb0, hdiv, hv,
        get_batches_mg_name_error fetched enc ns b sessRun hb0 hr1]
    rw [hT]
    exact ⟨rfl, rfl, rfl, rfl, .nameError "context", rfl, rfl⟩
  · have hT : interact_model ns (some b) L n_ctx (some url) author enc sessRun fetched stdin
        = ⟨[], 0, 1, 0, .error (.unboundLocal "batches")⟩ := by
      simp [interact_model, hb0, hdiv, hv,
        get_batches_mg_no_rounds fetched enc ns b sessRun hb0
          (Nat.lt_one_iff.mp (Nat.not_le.mp hr1))]
    rw [hT]
    exact ⟨rfl, rfl, rfl, rfl, .unboundLocal "batches", rfl, rfl⟩

theorem url_mode_one_fetch_error_witness :
    (1 ≤ 1) ∧ (1 % 1 = 0) ∧ (∃ v, resolve_length none 1024 = Except.ok v) ∧
    ((interact_model 1 (some 1) none 1024 (some ("u".data)) [] encA runA ("x".data)
        []).fetches = 1 ∧
     (interact_model 1 (some 1) none 1024 (some ("u".data)) [] encA runA ("x".data)
        []).reads = 0 ∧
     (interact_model 1 (some 1) none 1024 (some ("u".data)) [] encA runA ("x".data)
        []).printed = [] ∧
     (interact_model 1 (some 1) none 1024 (some ("u".data)) [] encA runA ("x".data)
        []).samplerCalls = 0 ∧
     ∃ e, (interact_model 1 (some 1) none 1024 (some ("u".data)) [] encA runA ("x".data)
        []).result = .error e ∧ e.isUnboundName = true) :=
  ⟨by decide, by decide, ⟨512, by decide⟩,
    url_mode_one_fetch_error 1 1 (by decide) (by decide) none 1024 ⟨512, by decide⟩
      ("u".data) [] ("x".data) encA runA []⟩
